import Mathlib

/-
Verification of the CSV → normalized rows → row hashes → Merkle tree → diff
pipeline of `src/app.js` (xc-diff).

Modelling conventions (shallow embedding):
- JavaScript strings are Lean `String`; `null`/`undefined` cell values are
  `Option String` with `none`.
- JS objects used as string-keyed records (`entry[header]`, the normalized row,
  the canonical object) are association lists `List (String × String)` with
  unique keys maintained by an overwrite-on-assign builder, like JS property
  assignment.
- The runtime primitives that the source calls but does not define —
  `String.prototype.normalize("NFC")`, the local-timezone `Date` constructor,
  the free-form `Date.parse` fallback, and `crypto.subtle.digest` — are fields
  of a `JsEnv` parameter.  Everything else is translated from the source.
- `String.prototype.localeCompare` (used to sort lowercase-hex hash strings
  and the fixed canonical field names) is modelled as code-point lexicographic
  comparison `strLe`; on strings over `0-9a-f`/ASCII letters locale collation
  orders digits before letters and both ascending, agreeing with code-point
  order.
- `Array.prototype.sort` is stable (ES2019); it is modelled with
  `List.insertionSort`, which is stable.
- The `while (true)` level loop of `buildMerkleTree` is modelled with an
  explicit fuel of `leaves.length + 1`, which bounds the number of levels
  (each round at least halves a level of length ≥ 2), keeping the definition
  structurally recursive and hence evaluable by `decide`.
-/

/-- The double-quote character, written via its code point. -/
def dq : Char := Char.ofNat 34

/-- Left brace character. -/
def lbrace : Char := Char.ofNat 123

/-- Right brace character. -/
def rbrace : Char := Char.ofNat 125

/-- The character class of the JS regex `\s` (also the set trimmed by
`String.prototype.trim`): space, `\t`, `\n`, `\v`, `\f`, `\r`, NBSP, and the
Unicode space separators, line/paragraph separators and BOM. -/
def isJsWs (c : Char) : Bool :=
  c = ' ' || c = '\t' || c = '\n' || c.toNat = 11 || c.toNat = 12 || c = '\r' ||
  c.toNat = 0xa0 || c.toNat = 0x1680 || (0x2000 ≤ c.toNat && c.toNat ≤ 0x200a) ||
  c.toNat = 0x2028 || c.toNat = 0x2029 || c.toNat = 0x202f || c.toNat = 0x205f ||
  c.toNat = 0x3000 || c.toNat = 0xfeff

/-- `String.prototype.trim`: drop JS whitespace from both ends. -/
def jsTrim (s : String) : String :=
  String.mk (((s.data.dropWhile isJsWs).reverse.dropWhile isJsWs).reverse)

/-- `text.replace(/\s+/g, " ")`: every maximal run of JS whitespace becomes a
single space.  The Boolean flag records whether the previous character was part
of a whitespace run. -/
def collapseWsAux : Bool → List Char → List Char
  | _, [] => []
  | inRun, c :: rest =>
    if isJsWs c then
      if inRun then collapseWsAux true rest else ' ' :: collapseWsAux true rest
    else c :: collapseWsAux false rest

/-- Collapse whitespace runs in a string. -/
def collapseWs (s : String) : String := String.mk (collapseWsAux false s.data)

/-- The runtime primitives used by `src/app.js` but provided by the browser:
NFC normalization, the local-time `Date` constructor (argument order
`year, monthIndex, day, hour, minute, second, ms`, result is the epoch-ms
timestamp or `none` for an invalid date), the free-form `Date.parse` fallback,
and SHA-256 (`crypto.subtle.digest`) at string and at byte level. -/
structure JsEnv where
  nfc : String → String
  localDate : Int → Int → Int → Int → Int → Int → Int → Option Int
  dateParse : String → Option Int
  sha256Hex : String → String
  sha256Bytes : List Nat → List Nat

/-- `normalizeText` (src/app.js:521): `null`/`undefined` and blank values give
`""`; otherwise trim, collapse whitespace runs to single spaces, and apply NFC.
-/
def normalizeText (env : JsEnv) (value : Option String) : String :=
  match value with
  | none => ""
  | some v =>
    let text := jsTrim v
    if text = "" then "" else env.nfc (collapseWs text)

/-- Lowercase hex digit for a value `< 16`. -/
def hexDigitChar : Nat → Char
  | 0 => '0' | 1 => '1' | 2 => '2' | 3 => '3' | 4 => '4'
  | 5 => '5' | 6 => '6' | 7 => '7' | 8 => '8' | 9 => '9'
  | 10 => 'a' | 11 => 'b' | 12 => 'c' | 13 => 'd' | 14 => 'e'
  | _ => 'f'

/-- Decimal digit character for a value reduced mod 10. -/
def digitChar (n : Nat) : Char := hexDigitChar (n % 10)

/-- Leap year in the proleptic Gregorian calendar used by JS `Date`. -/
def isLeapYear (y : Int) : Bool :=
  (y % 4 == 0 && y % 100 != 0) || y % 400 == 0

/-- Days in a month (month is 1-based). -/
def daysInMonth (y : Int) (m : Nat) : Nat :=
  if m = 2 then (if isLeapYear y then 29 else 28)
  else if m = 4 || m = 6 || m = 9 || m = 11 then 30
  else 31

/-- Days from the epoch 1970-01-01 to the civil date `y-m-d` (proleptic
Gregorian, the calendar of JS `Date`). -/
def daysFromCivil (y : Int) (m d : Nat) : Int :=
  let y' := y - (if m ≤ 2 then 1 else 0)
  let era := y'.fdiv 400
  let yoe := (y' - era * 400).toNat
  let mp := if m > 2 then m - 3 else m + 9
  let doy := (153 * mp + 2) / 5 + d - 1
  let doe := yoe * 365 + yoe / 4 - yoe / 100 + doy
  era * 146097 + (doe : Int) - 719468

/-- Civil date `(y, m, d)` of a day count from the epoch (inverse of
`daysFromCivil`). -/
def civilFromDays (z : Int) : Int × Nat × Nat :=
  let z' := z + 719468
  let era := z'.fdiv 146097
  let doe := (z' - era * 146097).toNat
  let yoe := (doe - doe / 1460 + doe / 36524 - doe / 146096) / 365
  let doy := doe - (365 * yoe + yoe / 4 - yoe / 100)
  let mp := (5 * doy + 2) / 153
  let d := doy - (153 * mp + 2) / 5 + 1
  let m := if mp < 10 then mp + 3 else mp - 9
  (era * 400 + yoe + (if m ≤ 2 then 1 else 0), m, d)

/-- UTC components `(y, mo, d, h, mi, s, ms)` of an epoch-ms timestamp, as a
JS `Date` decomposes it for `toISOString`. -/
def civilFromEpochMs (t : Int) : Int × Nat × Nat × Nat × Nat × Nat × Nat :=
  let ms := (t.emod 1000).toNat
  let totalSec := (t - t.emod 1000) / 1000
  let s := (totalSec.emod 60).toNat
  let totalMin := (totalSec - totalSec.emod 60) / 60
  let mi := (totalMin.emod 60).toNat
  let totalHr := (totalMin - totalMin.emod 60) / 60
  let h := (totalHr.emod 24).toNat
  let days := (totalHr - totalHr.emod 24) / 24
  let (y, mo, d) := civilFromDays days
  (y, mo, d, h, mi, s, ms)

/-- The time zone captured by the date regex: `Z` (or `z`, the match is
case-insensitive) or a `±HH:MM` offset. -/
inductive IsoZone where
  | zulu : IsoZone
  | offset (negative : Bool) (hh mm : Nat) : IsoZone
deriving DecidableEq

/-- The captures of the strict ISO-ish pattern of `parseFlexibleDate`
(src/app.js:547-549).  `msDigits` is the raw 1-3 digit fraction capture. -/
structure IsoMatch where
  year : Nat
  month : Nat
  day : Nat
  hasTime : Bool
  hour : Nat
  minute : Nat
  second : Option Nat
  msDigits : Option (List Nat)
  zone : Option IsoZone
deriving DecidableEq

/-- Read exactly `n` decimal digits. -/
def takeDigits : Nat → List Char → Option (Nat × List Char)
  | 0, l => some (0, l)
  | _ + 1, [] => none
  | n + 1, c :: rest =>
    if c.isDigit then
      match takeDigits n rest with
      | some (v, rest') =>
        -- most significant digit first
        some ((c.toNat - 48) * 10 ^ n + v, rest')
      | none => none
    else none

/-- Read one to three decimal digits, greedily (the `\d{1,3}` fraction). -/
def takeUpTo3Digits : List Char → Option (List Nat × List Char)
  | [] => none
  | c :: rest =>
    if c.isDigit then
      match rest with
      | c2 :: rest2 =>
        if c2.isDigit then
          match rest2 with
          | c3 :: rest3 =>
            if c3.isDigit then some ([c.toNat - 48, c2.toNat - 48, c3.toNat - 48], rest3)
            else some ([c.toNat - 48, c2.toNat - 48], rest2)
          | [] => some ([c.toNat - 48, c2.toNat - 48], [])
        else some ([c.toNat - 48], rest)
      | [] => some ([c.toNat - 48], [])
    else none

/-- The optional `(?:[ T]HH:MM(?::SS(?:\.fff)?)?)?` group: on success the
captures and the remainder; when the group does not participate, the input is
returned unconsumed (regex backtracking). -/
def tryTimePart (l : List Char) :
    Option (Nat × Nat × Option Nat × Option (List Nat)) × List Char :=
  match l with
  | c :: rest =>
    if c = ' ' || c = 'T' || c = 't' then
      match takeDigits 2 rest with
      | some (h, r1) =>
        match r1 with
        | ':' :: r2 =>
          match takeDigits 2 r2 with
          | some (mi, r3) =>
            match r3 with
            | ':' :: r4 =>
              match takeDigits 2 r4 with
              | some (s, r5) =>
                match r5 with
                | '.' :: r6 =>
                  match takeUpTo3Digits r6 with
                  | some (ds, r7) => (some (h, mi, some s, some ds), r7)
                  | none => (some (h, mi, some s, none), '.' :: r6)
                | _ => (some (h, mi, some s, none), r5)
              | none => (some (h, mi, none, none), ':' :: r4)
            | _ => (some (h, mi, none, none), r3)
          | none => (none, l)
        | _ => (none, l)
      | none => (none, l)
    else (none, l)
  | [] => (none, l)

/-- The trailing `(?: ?(Z|[+-]\d{2}:\d{2}))?$` group: `some zone?` when the
remainder matches it followed by end of input, `none` when the whole regex
fails here. -/
def parseZoneEnd (l : List Char) : Option (Option IsoZone) :=
  match l with
  | [] => some none
  | _ =>
    let l' := match l with
      | ' ' :: rest => rest
      | other => other
    match l' with
    | [c] =>
      if c = 'Z' || c = 'z' then some (some IsoZone.zulu) else none
    | c :: rest =>
      if c = '+' || c = '-' then
        match takeDigits 2 rest with
        | some (hh, r1) =>
          match r1 with
          | ':' :: r2 =>
            match takeDigits 2 r2 with
            | some (mm, []) => some (some (IsoZone.offset (c = '-') hh mm))
            | _ => none
          | _ => none
        | none => none
      else none
    | [] => none

/-- The anchored match of the regex at src/app.js:547-549 against the whole
input. -/
def parseIsoPattern (value : String) : Option IsoMatch :=
  match takeDigits 4 value.data with
  | some (y, '-' :: r1) =>
    match takeDigits 2 r1 with
    | some (mo, '-' :: r2) =>
      match takeDigits 2 r2 with
      | some (d, r3) =>
        let (time, r4) := tryTimePart r3
        match parseZoneEnd r4 with
        | some zone =>
          match time with
          | some (h, mi, s, ds) =>
            some ⟨y, mo, d, true, h, mi, s, ds, zone⟩
          | none => some ⟨y, mo, d, false, 0, 0, none, none, zone⟩
        | none => none
      | _ => none
    | _ => none
  | _ => none

/-- `millisecond.padEnd(3, "0").slice(0, 3)` as a value: the 1-3 captured
fraction digits right-padded with zeros to exactly three. -/
def msValue : Option (List Nat) → Nat
  | none => 0
  | some ds =>
    match ds with
    | [a] => a * 100
    | [a, b] => a * 100 + b * 10
    | a :: b :: c :: _ => a * 100 + b * 10 + c
    | [] => 0

/-- Validity of a zoned ISO timestamp per the ECMA-262 date-time string
format: fields in range (with `24:00:00.000` allowed as end of day) and the
resulting time value within ±8.64e15 ms. -/
def newDateIso (m : IsoMatch) (z : IsoZone) : Option Int :=
  let ms := msValue m.msDigits
  let sec := m.second.getD 0
  let fieldsOk :=
    1 ≤ m.month && m.month ≤ 12 && 1 ≤ m.day && m.day ≤ daysInMonth (m.year : Int) m.month &&
    m.minute ≤ 59 && sec ≤ 59 &&
    (m.hour ≤ 23 || (m.hour = 24 && m.minute = 0 && sec = 0 && ms = 0))
  let offsetOk := match z with
    | IsoZone.zulu => true
    | IsoZone.offset _ hh mm => hh ≤ 23 && mm ≤ 59
  if fieldsOk && offsetOk then
    let offsetMs : Int := match z with
      | IsoZone.zulu => 0
      | IsoZone.offset neg hh mm =>
        (if neg then -1 else 1) * ((hh : Int) * 60 + (mm : Int)) * 60000
    let t := ((daysFromCivil (m.year : Int) m.month m.day * 24 + (m.hour : Int)) * 60
        + (m.minute : Int)) * 60 * 1000 + (sec : Int) * 1000 + (ms : Int) - offsetMs
    if t.natAbs ≤ 8640000000000000 then some t else none
  else none

/-- `parseFlexibleDate` (src/app.js:546): try the strict pattern (zoned
timestamps convert to UTC; unzoned ones go through the environment's
local-time `Date` constructor), and fall back to the free-form `Date.parse`
when the pattern fails or yields an invalid date. -/
def parseFlexibleDate (env : JsEnv) (value : String) : Option Int :=
  let fallback := env.dateParse value
  match parseIsoPattern value with
  | some m =>
    let ms := msValue m.msDigits
    match m.zone with
    | some z =>
      match newDateIso m z with
      | some t => some t
      | none => fallback
    | none =>
      match env.localDate (m.year : Int) ((m.month : Int) - 1) (m.day : Int) (m.hour : Int)
          (m.minute : Int) ((m.second.getD 0 : Nat) : Int) (ms : Int) with
      | some t => some t
      | none => fallback
  | none => fallback

/-- Two-digit zero-padded decimal rendering. -/
def pad2 (n : Nat) : List Char := [digitChar (n / 10), digitChar n]

/-- Three-digit zero-padded decimal rendering (the millisecond field). -/
def pad3 (n : Nat) : List Char := [digitChar (n / 100), digitChar (n / 10), digitChar n]

/-- The year field of `toISOString`: four digits for 0-9999, the expanded
signed six-digit form outside that range. -/
def yearChars (y : Int) : List Char :=
  if 0 ≤ y && y ≤ 9999 then
    [digitChar (y.toNat / 1000), digitChar (y.toNat / 100), digitChar (y.toNat / 10), digitChar y.toNat]
  else
    (if y < 0 then '-' else '+') ::
      [digitChar (y.natAbs / 100000), digitChar (y.natAbs / 10000), digitChar (y.natAbs / 1000),
       digitChar (y.natAbs / 100), digitChar (y.natAbs / 10), digitChar y.natAbs]

/-- The characters of `toISOString` up to and including the seconds field. -/
def isoSecondsChars (t : Int) : List Char :=
  let (y, mo, d, h, mi, s, _) := civilFromEpochMs t
  yearChars y ++ '-' :: pad2 mo ++ '-' :: pad2 d ++ 'T' :: pad2 h ++ ':' :: pad2 mi ++
    ':' :: pad2 s

/-- `Date.prototype.toISOString`: UTC components with a three-digit
millisecond field and `Z`. -/
def toISOString (t : Int) : String :=
  let (_, _, _, _, _, _, ms) := civilFromEpochMs t
  String.mk (isoSecondsChars t ++ '.' :: pad3 ms ++ ['Z'])

/-- The `replace(/\.\d{3}Z$/, "Z")` of `formatUtcIso`: if the string ends in a
dot, three digits and `Z`, that suffix is replaced by `Z`. -/
def stripMsZ (s : String) : String :=
  match s.data.reverse with
  | z :: c3 :: c2 :: c1 :: p :: rest =>
    if z = 'Z' && p = '.' && c1.isDigit && c2.isDigit && c3.isDigit then
      String.mk (rest.reverse ++ ['Z'])
    else s
  | _ => s

/-- `formatUtcIso` (src/app.js:592). -/
def formatUtcIso (t : Int) : String := stripMsZ (toISOString t)

/-- Second-precision UTC ISO-8601 rendering with `Z`: the form the spec calls
the canonical date output. -/
def isoSecondsString (t : Int) : String := String.mk (isoSecondsChars t ++ ['Z'])

/-- `normalizeDate` (src/app.js:532): text-normalize, empty gives `""`, then
flexible parse; failure gives `""`, success is rendered by `formatUtcIso`. -/
def normalizeDate (env : JsEnv) (value : Option String) : String :=
  let normalizedText := normalizeText env value
  if normalizedText = "" then ""
  else
    match parseFlexibleDate env normalizedText with
    | none => ""
    | some t => formatUtcIso t

/-- A row object as produced by `parseCsv`: header name → raw cell string. -/
abbrev Entry := List (String × String)

/-- JS property read `entry[key]` where `key` may be `null` (a missing header
binding): `undefined` is `none`. -/
def getField (entry : Entry) (key : Option String) : Option String :=
  match key with
  | none => none
  | some k => (entry.find? (fun p => p.fst == k)).map (fun p => p.snd)

/-- JS property assignment `o[k] = v`: overwrite in place if the key exists
(keeping its position), else append. -/
def objSet (o : Entry) (k v : String) : Entry :=
  if o.any (fun p => p.fst == k) then
    o.map (fun p => if p.fst == k then (k, v) else p)
  else o ++ [(k, v)]

/-- One configured field (`FIELD_CONFIG` entry) together with the header that
matched it, if any (`buildActiveFields`). -/
structure FieldBinding where
  label : String
  canonical : String
  headerName : Option String
deriving DecidableEq

/-- `HASH_FIELDS` (src/app.js:9): the fixed global field order. -/
def HASH_FIELDS : List String := ["title", "username", "password", "last modified"]

/-- The value ternary shared by `normalizeEntry` and `canonicalizeEntry`:
date normalization for `last modified`, text normalization otherwise. -/
def canonicalVal (env : JsEnv) (entry : Entry) (f : FieldBinding) : String :=
  if f.canonical = "last modified" then normalizeDate env (getField entry f.headerName)
  else normalizeText env (getField entry f.headerName)

/-- `normalizeEntry` (src/app.js:470): normalized values keyed by canonical
field name, in selection order. -/
def normalizeEntry (env : JsEnv) (entry : Entry) (selectedFields : List FieldBinding) : Entry :=
  selectedFields.map (fun f => (f.canonical, canonicalVal env entry f))

/-- `buildHashInput` (src/app.js:507): normalized values of the selected
fields, in the fixed `HASH_FIELDS` order, joined with a pipe. -/
def buildHashInput (normalizedEntry : Entry) (selectedCanonical : List String) : String :=
  let parts := (HASH_FIELDS.filter (fun f => selectedCanonical.contains f)).map
    (fun f => (getField normalizedEntry (some f)).getD "")
  String.intercalate "|" parts



/-- One character of `JSON.stringify`'s string quoting: `"`, `\`, and the named
control escapes become two-character escapes, other control characters become
`\u00xx`, everything else is emitted verbatim. -/
def jsonEscapeChar (c : Char) : List Char :=
  if c = dq then ['\\', dq]
  else if c = '\\' then ['\\', '\\']
  else if c.toNat = 8 then ['\\', 'b']
  else if c.toNat = 12 then ['\\', 'f']
  else if c = '\n' then ['\\', 'n']
  else if c = '\r' then ['\\', 'r']
  else if c = '\t' then ['\\', 't']
  else if c.toNat < 32 then ['\\', 'u', '0', '0', hexDigitChar (c.toNat / 16), hexDigitChar (c.toNat % 16)]
  else [c]

/-- `JSON.stringify` of a string, as characters. -/
def jsonQuoteChars (s : String) : List Char :=
  dq :: s.data.flatMap jsonEscapeChar ++ [dq]

/-- One `"key":"value"` member of a stringified object. -/
def jsonMember (p : String × String) : List Char :=
  jsonQuoteChars p.fst ++ ':' :: jsonQuoteChars p.snd

/-- The members after the first, each preceded by a comma, then the closing
brace. -/
def jsonMembersRest : List (String × String) → List Char
  | [] => [rbrace]
  | p :: ps => ',' :: jsonMember p ++ jsonMembersRest ps

/-- `JSON.stringify` of a string-valued object given as an ordered list of
key/value pairs. -/
def jsonObjChars : List (String × String) → List Char
  | [] => [lbrace, rbrace]
  | p :: ps => lbrace :: jsonMember p ++ jsonMembersRest ps

/-- Code-point lexicographic `≤` on character lists; Boolean model of
`a.localeCompare(b) <= 0` for the strings this program compares. -/
def charListLe : List Char → List Char → Bool
  | [], _ => true
  | _ :: _, [] => false
  | a :: as, b :: bs => if a < b then true else if b < a then false else charListLe as bs

/-- Code-point lexicographic `≤` on strings. -/
def strLe (a b : String) : Bool := charListLe a.data b.data

/-- The comparison `(a, b) => a.canonical.localeCompare(b.canonical)` used to
key-sort fields in `canonicalizeEntry`. -/
def fieldLe (a b : FieldBinding) : Prop := strLe a.canonical b.canonical = true

instance : DecidableRel fieldLe := fun a b =>
  inferInstanceAs (Decidable (strLe a.canonical b.canonical = true))

/-- `canonicalizeEntry` (src/app.js:485): key-sorted object of the selected,
header-bound fields' normalized values, rendered with `JSON.stringify`. -/
def canonicalizeEntry (env : JsEnv) (entry : Entry) (selectedFields : List FieldBinding) : String :=
  let sortedFields := List.insertionSort fieldLe selectedFields
  let pairs := (sortedFields.filter (fun f => f.headerName.isSome)).map
    (fun f => (f.canonical, canonicalVal env entry f))
  String.mk (jsonObjChars pairs)

/-- Hex digit value (`parseInt` accepts both cases). -/
def hexCharVal (c : Char) : Option Nat :=
  if '0' ≤ c && c ≤ '9' then some (c.toNat - 48)
  else if 'a' ≤ c && c ≤ 'f' then some (c.toNat - 87)
  else if 'A' ≤ c && c ≤ 'F' then some (c.toNat - 55)
  else none

/-- `parseInt(two-char-slice, 16)` followed by the `Uint8Array` store: a
two-hex-digit value, the first digit alone if the second is not a hex digit,
and `0` if the first is not (`ToUint8(NaN) = 0`). -/
def hexPairByte (c1 c2 : Char) : Nat :=
  match hexCharVal c1, hexCharVal c2 with
  | some a, some b => 16 * a + b
  | some a, none => a
  | none, _ => 0

/-- The two-characters-at-a-time loop of `hexToBytes`. -/
def hexPairsToBytes : List Char → List Nat
  | c1 :: c2 :: rest => hexPairByte c1 c2 :: hexPairsToBytes rest
  | _ => []

/-- `hexToBytes` (src/app.js:662): empty input gives no bytes; odd-length hex
is left-padded with `0`. -/
def hexToBytes (hex : String) : List Nat :=
  if hex = "" then []
  else
    let normalized := if hex.length % 2 == 0 then hex.data else '0' :: hex.data
    hexPairsToBytes normalized

/-- `bytesToHex` (src/app.js:674); digest bytes are below 256. -/
def bytesToHex (bytes : List Nat) : String :=
  String.mk (bytes.flatMap (fun b => [hexDigitChar (b / 16 % 16), hexDigitChar (b % 16)]))

/-- `doubleSha256Hex` (src/app.js:651): double SHA-256 over the raw decoded
bytes of the two hex strings, rendered as hex. -/
def doubleSha256Hex (env : JsEnv) (leftHex rightHex : String) : String :=
  bytesToHex (env.sha256Bytes (env.sha256Bytes (hexToBytes leftHex ++ hexToBytes rightHex)))

/-- A leaf handed to `buildMerkleTree`: `{ hash, title }`. -/
structure MLeaf where
  hash : String
  title : String
deriving DecidableEq

/-- A tree node: `{ hash, title, isDuplicate }`; `title` is `none` for the
`title: null` of combined nodes. -/
structure MNode where
  hash : String
  title : Option String
  isDuplicate : Bool
deriving DecidableEq

/-- The odd-level padding step (src/app.js:624-631): a level longer than one
with odd length gets a copy of its last node appended, flagged `isDuplicate`.
-/
def padLevel (level : List MNode) : List MNode :=
  if level.length > 1 && level.length % 2 == 1 then
    match level.getLast? with
    | some last => level ++ [⟨last.hash, last.title, true⟩]
    | none => level
  else level

/-- The pairwise combination step (src/app.js:639-645): adjacent pairs, left to
right, each parent `doubleSha256Hex` of the children, no title, not a
duplicate.  (The loop is only entered on even-length levels.) -/
def combineLevel (env : JsEnv) : List MNode → List MNode
  | left :: right :: rest =>
    ⟨doubleSha256Hex env left.hash right.hash, none, false⟩ :: combineLevel env rest
  | _ => []

/-- The `while (true)` loop of `buildMerkleTree`, with fuel (see header). -/
def buildLevelsFuel (env : JsEnv) : Nat → List MNode → List (List MNode)
  | 0, _ => []
  | _, [] => []
  | fuel + 1, level@(_ :: _) =>
    let workingLevel := padLevel level
    if workingLevel.length == 1 then [workingLevel]
    else workingLevel :: buildLevelsFuel env fuel (combineLevel env workingLevel)

/-- The result of `buildMerkleTree`: `{ levels, root }`. -/
structure MerkleTreeData where
  levels : List (List MNode)
  root : String
deriving DecidableEq

/-- The root returned by `buildMerkleTree`: the hash of the single node of the
last level. -/
def rootOfLevels (levels : List (List MNode)) : String :=
  match levels.getLast? with
  | some (n :: _) => n.hash
  | _ => ""

/-- `buildMerkleTree` (src/app.js:609): `null` for no leaves, else the level
list and the root hash. -/
def buildMerkleTree (env : JsEnv) (leaves : List MLeaf) : Option MerkleTreeData :=
  if leaves.isEmpty then none
  else
    let start : List MNode := leaves.map (fun leaf => ⟨leaf.hash, leaf.title, false⟩)
    let levels := buildLevelsFuel env (leaves.length + 1) start
    some ⟨levels, rootOfLevels levels⟩

/-- The per-row pair of hashes plus display title pushed by `updateResults`
(src/app.js:262): `{ merkleHash, canonicalHash, title }`. -/
structure RowHashes where
  merkleHash : String
  canonicalHash : String
  title : String
deriving DecidableEq

/-- `(a, b) => a.canonicalHash.localeCompare(b.canonicalHash)` as a relation. -/
def rowLe (a b : RowHashes) : Prop := strLe a.canonicalHash b.canonicalHash = true

instance : DecidableRel rowLe := fun a b =>
  inferInstanceAs (Decidable (strLe a.canonicalHash b.canonicalHash = true))

/-- `hashes.sort(...)` (src/app.js:269): stable ascending sort by sort hash. -/
def sortHashes (hs : List RowHashes) : List RowHashes := List.insertionSort rowLe hs

/-- The title shown on a leaf (src/app.js:258-260): the normalized title cell
when a title column is bound, else the empty string. -/
def titleValue (env : JsEnv) (titleField : Option FieldBinding) (entry : Entry) : String :=
  match titleField with
  | some f => normalizeText env (getField entry f.headerName)
  | none => ""

/-- The per-entry hashing loop of `updateResults` (src/app.js:238-263). -/
def computeRowHashes (env : JsEnv) (selectedFields : List FieldBinding)
    (titleField : Option FieldBinding) (entries : List Entry) : List RowHashes :=
  entries.map (fun entry =>
    { merkleHash := env.sha256Hex (buildHashInput (normalizeEntry env entry selectedFields)
        (selectedFields.map (fun f => f.canonical))),
      canonicalHash := env.sha256Hex (canonicalizeEntry env entry selectedFields),
      title := titleValue env titleField entry })

/-- `leafNodes` (src/app.js:271): the sorted rows stripped to hash and title. -/
def leavesOfHashes (hs : List RowHashes) : List MLeaf :=
  (sortHashes hs).map (fun h => ⟨h.merkleHash, h.title⟩)

/-- The data pipeline of `updateResults`: short-circuit on an empty selection
or no entries, else hash each row, sort by sort hash, and build the tree. -/
def computeTree (env : JsEnv) (selectedFields : List FieldBinding)
    (titleField : Option FieldBinding) (entries : List Entry) : Option MerkleTreeData :=
  if selectedFields.isEmpty then none
  else buildMerkleTree env (leavesOfHashes (computeRowHashes env selectedFields titleField entries))

/-- Keep a finished row? (src/app.js:728 and 768): more than one field, or a
single non-empty field. -/
def csvKeepRow (row : List String) : Bool :=
  row.length > 1 || (row.length == 1 && !(row.headD "" == ""))

/-- `pushRowIfNeeded` (src/app.js:720): a leading wholly-empty row is dropped;
otherwise keep the row when `csvKeepRow` holds. -/
def csvPushRow (row : List String) (rows : List (List String)) : List (List String) :=
  let isEmptyRow := row.length == 1 && ((row.headD "").length == 0)
  if isEmptyRow && rows.isEmpty then rows
  else if csvKeepRow row then rows ++ [row]
  else rows

/-- The end of input (src/app.js:766-771): flush the current value, then keep
the final row when `csvKeepRow` holds. -/
def csvFinish (curVal : List Char) (curRow : List String) (rows : List (List String)) :
    List (List String) :=
  let row := curRow ++ [String.mk curVal]
  if csvKeepRow row then rows ++ [row] else rows

/-- The character-at-a-time scan of `parseCsv` (src/app.js:734-764), with the
quote state, the current value, the current row and the finished rows as
arguments.  A doubled quote (checked first, in or out of quotes) emits one
literal quote; a single quote toggles the flag; a comma outside quotes ends
the field; a line break outside quotes ends the row, `\r\n` counting once. -/
def csvScan : List Char → Bool → List Char → List String → List (List String) →
    List (List String)
  | [], _, curVal, curRow, rows => csvFinish curVal curRow rows
  | c :: rest, isInQuotes, curVal, curRow, rows =>
    if c = dq then
      match rest with
      | c2 :: rest2 =>
        if c2 = dq then csvScan rest2 isInQuotes (curVal ++ [dq]) curRow rows
        else csvScan (c2 :: rest2) (!isInQuotes) curVal curRow rows
      | [] => csvFinish curVal curRow rows
    else if c = ',' && !isInQuotes then
      csvScan rest isInQuotes [] (curRow ++ [String.mk curVal]) rows
    else if (c = '\n' || c = '\r') && !isInQuotes then
      let rows' := csvPushRow (curRow ++ [String.mk curVal]) rows
      match rest with
      | c2 :: rest2 =>
        if c = '\r' && c2 = '\n' then csvScan rest2 isInQuotes [] [] rows'
        else csvScan (c2 :: rest2) isInQuotes [] [] rows'
      | [] => csvFinish [] [] rows'
    else csvScan rest isInQuotes (curVal ++ [c]) curRow rows

/-- Strip a leading byte-order mark (src/app.js:709). -/
def stripBom (s : String) : List Char :=
  match s.data with
  | c :: rest => if c.toNat = 0xfeff then rest else c :: rest
  | [] => []

/-- Build one row object: each header maps to the positional cell, missing
cells becoming `""` (src/app.js:778-784). -/
def buildEntryRow (headers row : List String) : Entry :=
  headers.enum.foldl (fun e p => objSet e p.snd (row.getD p.fst "")) []

/-- `parseCsv` (src/app.js:708): headers are the first retained row, data rows
become header-keyed objects. -/
def parseCsv (text : String) : List String × List Entry :=
  let rows := csvScan (stripBom text) false [] [] []
  match rows with
  | [] => ([], [])
  | headers :: dataRows => (headers, dataRows.map (buildEntryRow headers))

/-- The diff of `handleComparison` (src/app.js:801-828): the reference set is
the left panel's truthy leaf hashes; with a non-empty reference set and a
non-empty candidate sequence, every truthy candidate hash outside the
reference set is flagged; otherwise nothing is. -/
def handleComparisonDiff (leftLeaves rightLeaves : List MLeaf) : List String :=
  let leftHashes := (leftLeaves.map (fun l => l.hash)).filter (fun h => !(h == ""))
  if leftHashes.isEmpty || rightLeaves.isEmpty then []
  else (rightLeaves.map (fun l => l.hash)).filter
    (fun h => !(h == "") && !(leftHashes.contains h))

/-- One in-flight `updateResults` run: the generation captured at start, the
number of staleness checks still ahead of the final check-and-publish (three
per entry plus the post-loop check), and the result it would publish. -/
structure RunProc where
  runId : Nat
  checksLeft : Nat
  leaves : List MLeaf
  tree : Option MerkleTreeData
deriving DecidableEq

/-- The panel state shared by runs: the generation counter and the published
result slot (`latestHashes` and `lastMerkleData`). -/
structure PanelSys where
  version : Nat
  latestHashes : List MLeaf
  lastMerkleData : Option MerkleTreeData
  runs : List RunProc
deriving DecidableEq

/-- Observable labels of system steps. -/
inductive SysLabel where
  | started (id : Nat)
  | cleared
  | checkPassed (id : Nat)
  | abandoned (id : Nat)
  | published (id : Nat)
deriving DecidableEq

/-- Interleaving semantics of `updateResults` runs over one panel.  A `start`
increments the counter and captures it as the new run's identifier
(src/app.js:224); `clearBump` is `resetData`/the empty-selection path
(increment, clear the slot); `clearKeep` is the empty-entries path (clear, no
increment).  Each pure check (src/app.js:239, 247, 254, 265) either passes, or
abandons the run with no state mutation.  The final check (src/app.js:277)
and the publication (src/app.js:280-282) are atomic: no suspension point
separates them. -/
inductive SysStep : PanelSys → SysLabel → PanelSys → Prop where
  | start (s : PanelSys) (n : Nat) (leaves : List MLeaf) (tree : Option MerkleTreeData) :
      SysStep s (SysLabel.started (s.version + 1))
        ⟨s.version + 1, s.latestHashes, s.lastMerkleData,
          s.runs ++ [⟨s.version + 1, n, leaves, tree⟩]⟩
  | clearBump (s : PanelSys) :
      SysStep s SysLabel.cleared ⟨s.version + 1, [], none, s.runs⟩
  | clearKeep (s : PanelSys) :
      SysStep s SysLabel.cleared ⟨s.version, [], none, s.runs⟩
  | checkPass (s : PanelSys) (pre post : List RunProc) (r : RunProc) (k : Nat)
      (hruns : s.runs = pre ++ r :: post) (hk : r.checksLeft = k + 1)
      (hid : r.runId = s.version) :
      SysStep s (SysLabel.checkPassed r.runId)
        ⟨s.version, s.latestHashes, s.lastMerkleData,
          pre ++ ⟨r.runId, k, r.leaves, r.tree⟩ :: post⟩
  | checkFail (s : PanelSys) (pre post : List RunProc) (r : RunProc) (k : Nat)
      (hruns : s.runs = pre ++ r :: post) (hk : r.checksLeft = k + 1)
      (hid : r.runId ≠ s.version) :
      SysStep s (SysLabel.abandoned r.runId)
        ⟨s.version, s.latestHashes, s.lastMerkleData, pre ++ post⟩
  | publishOk (s : PanelSys) (pre post : List RunProc) (r : RunProc)
      (hruns : s.runs = pre ++ r :: post) (hk : r.checksLeft = 0)
      (hid : r.runId = s.version) :
      SysStep s (SysLabel.published r.runId)
        ⟨s.version, r.leaves, r.tree, pre ++ post⟩
  | publishStale (s : PanelSys) (pre post : List RunProc) (r : RunProc)
      (hruns : s.runs = pre ++ r :: post) (hk : r.checksLeft = 0)
      (hid : r.runId ≠ s.version) :
      SysStep s (SysLabel.abandoned r.runId)
        ⟨s.version, s.latestHashes, s.lastMerkleData, pre ++ post⟩

/-- Reachability along a labelled trace. -/
inductive SysReaches : PanelSys → List SysLabel → PanelSys → Prop where
  | refl (s : PanelSys) : SysReaches s [] s
  | step {s s' s'' : PanelSys} {l : SysLabel} {tr : List SysLabel} :
      SysStep s l s' → SysReaches s' tr s'' → SysReaches s (l :: tr) s''

/-- The initial panel state (`computationVersion` 0, nothing published). -/
def initPanel : PanelSys := ⟨0, [], none, []⟩

/-- A concrete environment for evaluating the model on closed inputs: NFC is
the identity on the ASCII strings involved, the digest primitives are taken as
the identity, and the host-defined local-time constructor and free-form parser
reject everything. -/
def envC : JsEnv :=
  { nfc := fun s => s,
    localDate := fun _ _ _ _ _ _ _ => none,
    dateParse := fun _ => none,
    sha256Hex := fun s => s,
    sha256Bytes := fun bs => bs }

/-- Strict version of the `localeCompare` order on strings. -/
def strLt (a b : String) : Prop := strLe a b = true ∧ a ≠ b

/-- The `localeCompare` order as a relation on strings. -/
def strLeP (a b : String) : Prop := strLe a b = true

/-- The first CSV input of the tokenizer claims: `a,"",b` then `x,y,z`. -/
def csvEmptyQuoted : String := String.mk ['a', ',', dq, dq, ',', 'b', '\n', 'x', ',', 'y', ',', 'z']

/-- The level-shape predicate of the amended C3: either no node of the level
is a duplicate, or the level ends in a duplicate that copies both the hash
and the title of its left sibling, every other node being a non-duplicate. -/
def dupShape (lvl : List MNode) : Prop :=
  (∀ n ∈ lvl, n.isDuplicate = false) ∨
  ∃ l₀ a, lvl = l₀ ++ [a, ⟨a.hash, a.title, true⟩] ∧ (∀ n ∈ l₀ ++ [a], n.isDuplicate = false)

/-- Proof device: a decoder for `JSON.stringify`'s string quoting.  It reads
escaped characters until the closing unescaped quote and returns the decoded
characters together with the rest of the input; it is used to show the
stringified canonical object determines the field values. -/
def unescChars : List Char → Option (List Char × List Char)
  | [] => none
  | c :: rest =>
    if c = dq then some ([], rest)
    else if c = '\\' then
      match rest with
      | [] => none
      | e :: rest2 =>
        if e = dq then (unescChars rest2).map (fun p => (dq :: p.1, p.2))
        else if e = '\\' then (unescChars rest2).map (fun p => ('\\' :: p.1, p.2))
        else if e = 'b' then (unescChars rest2).map (fun p => (Char.ofNat 8 :: p.1, p.2))
        else if e = 'f' then (unescChars rest2).map (fun p => (Char.ofNat 12 :: p.1, p.2))
        else if e = 'n' then (unescChars rest2).map (fun p => ('\n' :: p.1, p.2))
        else if e = 'r' then (unescChars rest2).map (fun p => ('\r' :: p.1, p.2))
        else if e = 't' then (unescChars rest2).map (fun p => ('\t' :: p.1, p.2))
        else if e = 'u' then
          match rest2 with
          | _ :: _ :: h1 :: h2 :: rest3 =>
            match hexCharVal h1, hexCharVal h2 with
            | some a, some b => (unescChars rest3).map (fun p => (Char.ofNat (16 * a + b) :: p.1, p.2))
            | _, _ => none
          | _ => none
        else none
    else (unescChars rest).map (fun p => (c :: p.1, p.2))

theorem charListLe_total : ∀ (a b : List Char), charListLe a b = true ∨ charListLe b a = true := by
  intro a
  induction a with
  | nil => intro b; left; rfl
  | cons x xs ih =>
    intro b
    cases b with
    | nil => right; rfl
    | cons y ys =>
      simp only [charListLe]
      rcases lt_trichotomy x y with h | h | h
      · left; simp [h]
      · subst h
        simp only [lt_irrefl, if_false]
        exact ih ys
      · right; simp [h]

theorem charListLe_trans : ∀ {a b c : List Char},
    charListLe a b = true → charListLe b c = true → charListLe a c = true := by
  intro a
  induction a with
  | nil => intro b c _ _; rfl
  | cons x xs ih =>
    intro b c hab hbc
    cases b with
    | nil => simp [charListLe] at hab
    | cons y ys =>
      cases c with
      | nil => simp [charListLe] at hbc
      | cons z zs =>
        simp only [charListLe] at hab hbc ⊢
        rcases lt_trichotomy x y with h1 | h1 | h1
        · rcases lt_trichotomy y z with h2 | h2 | h2
          · simp [lt_trans h1 h2]
          · subst h2; simp [h1]
          · simp [h2, lt_asymm h2] at hbc
        · subst h1
          simp only [lt_irrefl, if_false] at hab
          rcases lt_trichotomy x z with h2 | h2 | h2
          · simp [h2]
          · subst h2
            simp only [lt_irrefl, if_false] at hbc ⊢
            exact ih hab hbc
          · simp [h2, lt_asymm h2] at hbc
        · simp [h1, lt_asymm h1] at hab

theorem charListLe_antisymm : ∀ {a b : List Char},
    charListLe a b = true → charListLe b a = true → a = b := by
  intro a
  induction a with
  | nil =>
    intro b _ hba
    cases b with
    | nil => rfl
    | cons y ys => simp [charListLe] at hba
  | cons x xs ih =>
    intro b hab hba
    cases b with
    | nil => simp [charListLe] at hab
    | cons y ys =>
      simp only [charListLe] at hab hba
      rcases lt_trichotomy x y with h1 | h1 | h1
      · simp [h1, lt_asymm h1] at hba
      · subst h1
        simp only [lt_irrefl, if_false] at hab hba
        rw [ih hab hba]
      · simp [h1, lt_asymm h1] at hab

theorem strLe_total (a b : String) : strLe a b = true ∨ strLe b a = true :=
  charListLe_total a.data b.data

theorem strLe_trans {a b c : String} (hab : strLe a b = true) (hbc : strLe b c = true) :
    strLe a c = true :=
  charListLe_trans hab hbc

theorem strLe_antisymm {a b : String} (hab : strLe a b = true) (hba : strLe b a = true) :
    a = b := by
  cases a; cases b
  exact congrArg String.mk (charListLe_antisymm hab hba)

instance : IsTotal String strLeP := ⟨strLe_total⟩

instance : IsTrans String strLeP := ⟨fun _ _ _ => strLe_trans⟩

instance : IsAntisymm String strLeP := ⟨fun _ _ => strLe_antisymm⟩

instance : IsTotal RowHashes rowLe :=
  ⟨fun a b => strLe_total a.canonicalHash b.canonicalHash⟩

instance : IsTrans RowHashes rowLe := ⟨fun _ _ _ => strLe_trans⟩

/-- Claim C5: for every normalized row and every pair of selections containing
the same set of canonical field names, the identity-hash input (the selected
normalized values joined with a pipe in the fixed global `HASH_FIELDS` order
filtered to the selection) is identical, so the identity hash does not depend
on the order in which the caller listed the selected fields. -/
theorem buildHashInput_selection_set_invariant (n : Entry) (sel1 sel2 : List String)
    (h : ∀ f, f ∈ sel1 ↔ f ∈ sel2) :
    buildHashInput n sel1 = buildHashInput n sel2 := by
  unfold buildHashInput
  have hf : HASH_FIELDS.filter (fun f => sel1.contains f) =
      HASH_FIELDS.filter (fun f => sel2.contains f) := by
    apply List.filter_congr
    intro x _
    simp [h x]
  rw [hf]

/-- Witness for C5 at a concrete row and a pair of reordered selections. -/
theorem buildHashInput_selection_set_invariant_witness :
    (∀ f : String, f ∈ ["password", "title"] ↔ f ∈ ["title", "password"]) ∧
    buildHashInput [("title", "t"), ("password", "p")] ["password", "title"] =
      buildHashInput [("title", "t"), ("password", "p")] ["title", "password"] :=
  ⟨fun f => by constructor <;> (intro hf; simp at hf ⊢; tauto),
   buildHashInput_selection_set_invariant _ _ _
     (fun f => by constructor <;> (intro hf; simp at hf ⊢; tauto))⟩

/-- Claim C10: the identity-hash input encoding is not injective on normalized
rows: selecting title and username, the distinct rows `title="a|b",
username="c"` and `title="a", username="b|c"` both encode to `a|b|c`, because
field values containing the pipe are joined without escaping. -/
theorem buildHashInput_not_injective :
    buildHashInput [("title", "a|b"), ("username", "c")] ["title", "username"] = "a|b|c" ∧
    buildHashInput [("title", "a"), ("username", "b|c")] ["title", "username"] = "a|b|c" ∧
    ([("title", "a|b"), ("username", "c")] : Entry) ≠ [("title", "a"), ("username", "b|c")] :=
  ⟨by decide, by decide, by decide⟩

/-- Claim C7: with a non-empty reference set and candidate sequence the diff
flags exactly the candidate identity hashes absent from the reference set; it
is asymmetric; and an empty reference set or an empty candidate sequence
yields the empty result rather than an error. -/
theorem handleComparisonDiff_spec :
    (∀ (L R : List MLeaf) (h : String),
      (L.map MLeaf.hash).filter (fun x => !(x == "")) ≠ [] → R ≠ [] → h ≠ "" →
      (h ∈ handleComparisonDiff L R ↔ (h ∈ R.map MLeaf.hash ∧ h ∉ L.map MLeaf.hash))) ∧
    handleComparisonDiff [⟨"a", ""⟩, ⟨"b", ""⟩] [⟨"a", ""⟩, ⟨"c", ""⟩] = ["c"] ∧
    handleComparisonDiff [⟨"a", ""⟩, ⟨"c", ""⟩] [⟨"a", ""⟩, ⟨"b", ""⟩] = ["b"] ∧
    (∀ (L R : List MLeaf), (L.map MLeaf.hash).filter (fun x => !(x == "")) = [] →
      handleComparisonDiff L R = []) ∧
    (∀ (L : List MLeaf), handleComparisonDiff L [] = []) := by
  refine ⟨?_, by decide, by decide, ?_, ?_⟩
  · intro L R h hL hR hne
    unfold handleComparisonDiff
    rw [if_neg (by simp [List.isEmpty_eq_false, hL, hR])]
    simp only [List.mem_filter, List.mem_map]
    constructor
    · rintro ⟨hmR, hp⟩
      refine ⟨hmR, fun habs => ?_⟩
      simp [List.mem_filter, hne, habs] at hp
    · rintro ⟨hmR, habs⟩
      refine ⟨hmR, ?_⟩
      simp only [Bool.and_eq_true, Bool.not_eq_true', beq_eq_false_iff_ne]
      refine ⟨hne, ?_⟩
      cases hc : (List.filter (fun h => !h == "") (List.map (fun l => l.hash) L)).contains h
      · rfl
      · exfalso
        rw [List.elem_iff] at hc
        have hmem := (List.mem_filter.mp hc).1
        exact habs (by simpa using hmem)
  · intro L R hL
    simp only [handleComparisonDiff, hL]
    simp
  · intro L
    simp [handleComparisonDiff]

/-- Witness for C7's universal parts at concrete inputs. -/
theorem handleComparisonDiff_spec_witness :
    (("c" : String) ∈ handleComparisonDiff [⟨"a", ""⟩, ⟨"b", ""⟩] [⟨"a", ""⟩, ⟨"c", ""⟩] ↔
      ("c" ∈ ([⟨"a", ""⟩, ⟨"c", ""⟩] : List MLeaf).map MLeaf.hash ∧
       "c" ∉ ([⟨"a", ""⟩, ⟨"b", ""⟩] : List MLeaf).map MLeaf.hash)) ∧
    handleComparisonDiff ([] : List MLeaf) [⟨"a", ""⟩] = [] :=
  ⟨handleComparisonDiff_spec.1 _ _ _ (by decide) (by decide) (by decide),
   handleComparisonDiff_spec.2.2.2.1 [] [⟨"a", ""⟩] (by decide)⟩

/-- Claim C8: the date normalizer is total: an absent, empty, or unparseable
date value yields the empty string rather than an error, and the normalized
row still carries one entry per selected field (so the empty string still
participates in the identity-hash input and per-row hashing never aborts). -/
theorem normalizeDate_total_fallback (env : JsEnv) (v : Option String) :
    (v = none → normalizeDate env v = "") ∧
    (normalizeText env v = "" → normalizeDate env v = "") ∧
    (parseFlexibleDate env (normalizeText env v) = none → normalizeDate env v = "") ∧
    (∀ (entry : Entry) (sf : List FieldBinding),
      (normalizeEntry env entry sf).map Prod.fst = sf.map FieldBinding.canonical) := by
  refine ⟨?_, ?_, ?_, ?_⟩
  · intro hv; subst hv; rfl
  · intro he; unfold normalizeDate; rw [if_pos he]
  · intro hp
    unfold normalizeDate
    by_cases he : normalizeText env v = ""
    · rw [if_pos he]
    · rw [if_neg he, hp]
  · intro entry sf
    unfold normalizeEntry
    rw [List.map_map]
    rfl

/-- Witness for C8 at a value the flexible parser rejects. -/
theorem normalizeDate_total_fallback_witness :
    parseFlexibleDate envC (normalizeText envC (some "notadate")) = none ∧
    normalizeDate envC (some "notadate") = "" :=
  ⟨by decide, (normalizeDate_total_fallback envC (some "notadate")).2.2.1 (by decide)⟩

theorem digitChar_isDigit (n : Nat) : (digitChar n).isDigit = true := by
  unfold digitChar
  have h : n % 10 < 10 := Nat.mod_lt n (by norm_num)
  generalize n % 10 = k at h
  interval_cases k <;> decide

theorem stripMsZ_seconds (l : List Char) (a b c : Char)
    (ha : a.isDigit = true) (hb : b.isDigit = true) (hc : c.isDigit = true) :
    stripMsZ (String.mk (l ++ '.' :: [a, b, c] ++ ['Z'])) = String.mk (l ++ ['Z']) := by
  have hrev : (String.mk (l ++ '.' :: [a, b, c] ++ ['Z'])).data.reverse
      = 'Z' :: c :: b :: a :: '.' :: l.reverse := by simp
  unfold stripMsZ
  rw [hrev]
  simp [ha, hb, hc]

theorem formatUtcIso_eq_isoSeconds (t : Int) : formatUtcIso t = isoSecondsString t := by
  unfold formatUtcIso toISOString
  rcases hC : civilFromEpochMs t with ⟨y, mo, d, hh, mi, ss, ms⟩
  show stripMsZ (String.mk (isoSecondsChars t ++ '.' :: pad3 ms ++ ['Z'])) = isoSecondsString t
  unfold pad3
  rw [stripMsZ_seconds _ _ _ _ (digitChar_isDigit _) (digitChar_isDigit _) (digitChar_isDigit _)]
  rfl

/-- Counterexample to Claim C2: the milliseconds of a successfully parsed
date are stripped even when nonzero — `.123` does not survive into the
normalized output. -/
theorem normalizeDate_millis_counterexample :
    normalizeDate envC (some "2020-01-02T03:04:05.123Z") = "2020-01-02T03:04:05Z" ∧
    "2020-01-02T03:04:05Z" ≠ "2020-01-02T03:04:05.123Z" :=
  ⟨by decide, by decide⟩

/-- Claim C2 (amended): every raw date value that parses successfully is
rendered as canonical UTC ISO-8601 at second precision with a `Z` suffix; the
three-digit millisecond component produced by `toISOString` is stripped
unconditionally, whether zero or nonzero. -/
theorem normalizeDate_seconds_precision (env : JsEnv) (v : Option String) (t : Int)
    (hne : normalizeText env v ≠ "")
    (hp : parseFlexibleDate env (normalizeText env v) = some t) :
    normalizeDate env v = isoSecondsString t := by
  unfold normalizeDate
  rw [if_neg hne, hp]
  exact formatUtcIso_eq_isoSeconds t

/-- Witness for the amended C2 at a concrete zoned timestamp. -/
theorem normalizeDate_seconds_precision_witness :
    normalizeText envC (some "2020-01-03T04:05:06Z") ≠ "" ∧
    parseFlexibleDate envC (normalizeText envC (some "2020-01-03T04:05:06Z"))
      = some 1578024306000 ∧
    normalizeDate envC (some "2020-01-03T04:05:06Z") = isoSecondsString 1578024306000 :=
  ⟨by decide, by decide,
   normalizeDate_seconds_precision envC (some "2020-01-03T04:05:06Z") 1578024306000
     (by decide) (by decide)⟩

/-- Counterexample to Claim C4: the doubled-quote rule is checked before the
quote toggle, so the empty quoted field in `a,"",b` tokenizes to a field
holding one literal quote character, not to the empty string. -/
theorem parseCsv_empty_quoted_counterexample :
    (parseCsv csvEmptyQuoted).fst = ["a", String.mk [dq], "b"] ∧
    (parseCsv csvEmptyQuoted).fst ≠ ["a", "", "b"] :=
  ⟨by decide, by decide⟩

theorem csvScan_nil (inQ : Bool) (cv : List Char) (cr : List String)
    (rows : List (List String)) : csvScan [] inQ cv cr rows = csvFinish cv cr rows := by
  rw [csvScan.eq_def]

/-- Claim C4 (amended): the scanner's universal transition rules, over every
scanner state (quote flag, current value, current row, finished rows) and
every remainder: a doubled quote emits exactly one literal quote character
regardless of the quoting state; a non-doubled quote toggles the quoted flag
without emitting anything; inside quotes every other character (commas and
line breaks included) is appended literally; a comma outside quotes ends the
current field; a line break outside quotes ends the current row, `\r\n`
counting as a single break while `\n` alone and `\r` not followed by `\n`
each end a row; consequently an empty quoted field tokenizes to a field
containing one literal quote character rather than the empty string. -/
theorem parseCsv_quote_machine_amended :
    (∀ (rest : List Char) (inQ : Bool) (cv : List Char) (cr : List String)
        (rows : List (List String)),
      csvScan (dq :: dq :: rest) inQ cv cr rows = csvScan rest inQ (cv ++ [dq]) cr rows) ∧
    (∀ (c : Char) (rest : List Char) (inQ : Bool) (cv : List Char) (cr : List String)
        (rows : List (List String)), c ≠ dq →
      csvScan (dq :: c :: rest) inQ cv cr rows = csvScan (c :: rest) (!inQ) cv cr rows) ∧
    (∀ (c : Char) (rest : List Char) (cv : List Char) (cr : List String)
        (rows : List (List String)), c ≠ dq →
      csvScan (c :: rest) true cv cr rows = csvScan rest true (cv ++ [c]) cr rows) ∧
    (∀ (rest : List Char) (cv : List Char) (cr : List String) (rows : List (List String)),
      csvScan (',' :: rest) false cv cr rows
        = csvScan rest false [] (cr ++ [String.mk cv]) rows) ∧
    (∀ (rest : List Char) (cv : List Char) (cr : List String) (rows : List (List String)),
      csvScan ('\n' :: rest) false cv cr rows
        = csvScan rest false [] [] (csvPushRow (cr ++ [String.mk cv]) rows)) ∧
    (∀ (rest : List Char) (cv : List Char) (cr : List String) (rows : List (List String)),
      csvScan ('\r' :: '\n' :: rest) false cv cr rows
        = csvScan rest false [] [] (csvPushRow (cr ++ [String.mk cv]) rows)) ∧
    (∀ (c : Char) (rest : List Char) (cv : List Char) (cr : List String)
        (rows : List (List String)), c ≠ '\n' →
      csvScan ('\r' :: c :: rest) false cv cr rows
        = csvScan (c :: rest) false [] [] (csvPushRow (cr ++ [String.mk cv]) rows)) ∧
    (parseCsv csvEmptyQuoted).fst = ["a", String.mk [dq], "b"] := by
  refine ⟨?_, ?_, ?_, ?_, ?_, ?_, ?_, by decide⟩
  · intro rest inQ cv cr rows
    rw [csvScan.eq_def]
    simp
  · intro c rest inQ cv cr rows h
    rw [csvScan.eq_def]
    simp [h]
  · intro c rest cv cr rows h
    rw [csvScan.eq_def]
    simp [h]
  · intro rest cv cr rows
    rw [csvScan.eq_def]
    simp [show ¬((',' : Char) = dq) from by decide]
  · intro rest cv cr rows
    cases rest with
    | nil =>
      rw [csvScan.eq_def, csvScan_nil]
      simp [show ¬(('\n' : Char) = dq) from by decide]
    | cons c2 rest2 =>
      rw [csvScan.eq_def]
      simp [show ¬(('\n' : Char) = dq) from by decide]
  · intro rest cv cr rows
    rw [csvScan.eq_def]
    simp [show ¬(('\r' : Char) = dq) from by decide]
  · intro c rest cv cr rows h
    rw [csvScan.eq_def]
    simp [show ¬(('\r' : Char) = dq) from by decide, h]

/-- Witness for the amended C4: each hypothesis-bearing rule exercised at a
concrete character and state. -/
theorem parseCsv_quote_machine_amended_witness :
    (('x' : Char) ≠ dq ∧
      csvScan [dq, 'x'] false [] [] [] = csvScan ['x'] (!false) [] [] []) ∧
    (('x' : Char) ≠ dq ∧
      csvScan ['x', 'y'] true [] [] [] = csvScan ['y'] true ['x'] [] []) ∧
    (('z' : Char) ≠ '\n' ∧
      csvScan ['\r', 'z'] false ['a'] [] [] =
        csvScan ['z'] false [] [] (csvPushRow [String.mk ['a']] [])) :=
  ⟨⟨by decide, parseCsv_quote_machine_amended.2.1 'x' [] false [] [] [] (by decide)⟩,
   ⟨by decide, parseCsv_quote_machine_amended.2.2.1 'x' ['y'] [] [] [] (by decide)⟩,
   ⟨by decide, parseCsv_quote_machine_amended.2.2.2.2.2.2.1 'z' [] ['a'] [] [] (by decide)⟩⟩

/-- Counterexample to Claim C3: with three leaves whose last title is
non-empty, the padding duplicate appended to the leaf level carries that
title (`title: last.title` is copied), so a duplicate node can carry a
non-empty title. -/
theorem buildMerkleTree_duplicate_title_counterexample :
    (buildMerkleTree envC [⟨"aa", "t1"⟩, ⟨"bb", "t2"⟩, ⟨"cc", "t3"⟩]).map
        (fun t => (t.levels.headD []).getLast?)
      = some (some ⟨"cc", some "t3", true⟩) ∧
    (some "t3" : Option String) ≠ none ∧ ("t3" : String) ≠ "" :=
  ⟨by decide, by decide, by decide⟩

theorem combineLevel_not_duplicate (env : JsEnv) :
    ∀ (l : List MNode), ∀ n ∈ combineLevel env l, n.isDuplicate = false
  | [], n, h => by simp [combineLevel] at h
  | [_], n, h => by simp [combineLevel] at h
  | a :: b :: rest, n, h => by
    simp only [combineLevel, List.mem_cons] at h
    rcases h with h | h
    · rw [h]
    · exact combineLevel_not_duplicate env rest n h

theorem padLevel_dupShape (l : List MNode) (hl : ∀ n ∈ l, n.isDuplicate = false) :
    dupShape (padLevel l) := by
  unfold padLevel
  split_ifs with h
  · cases hg : l.getLast? with
    | none => left; exact hl
    | some last =>
      right
      have hne : l ≠ [] := by
        intro h0; subst h0; simp at hg
      have hlast : last = l.getLast hne := by
        have := List.getLast?_eq_getLast l hne
        rw [hg] at this
        exact Option.some_injective _ this
      have hsplit : l.dropLast ++ [last] = l := by
        rw [hlast]
        exact List.dropLast_append_getLast hne
      refine ⟨l.dropLast, last, ?_, ?_⟩
      · rw [show l.dropLast ++ [last, ⟨last.hash, last.title, true⟩]
            = (l.dropLast ++ [last]) ++ [(⟨last.hash, last.title, true⟩ : MNode)] from by
              simp]
        rw [hsplit]
      · rw [hsplit]
        exact hl
  · left; exact hl

theorem buildLevelsFuel_dupShape (env : JsEnv) :
    ∀ (fuel : Nat) (l : List MNode), (∀ n ∈ l, n.isDuplicate = false) →
    ∀ lvl ∈ buildLevelsFuel env fuel l, dupShape lvl := by
  intro fuel
  induction fuel with
  | zero => intro l _ lvl h; simp [buildLevelsFuel] at h
  | succ f ih =>
    intro l hl lvl hlvl
    cases l with
    | nil => simp [buildLevelsFuel] at hlvl
    | cons x xs =>
      simp only [buildLevelsFuel] at hlvl
      by_cases hone : ((padLevel (x :: xs)).length == 1) = true
      · rw [if_pos hone] at hlvl
        simp only [List.mem_singleton] at hlvl
        subst hlvl
        exact padLevel_dupShape _ hl
      · rw [if_neg hone] at hlvl
        rcases List.mem_cons.mp hlvl with hh | hh
        · subst hh
          exact padLevel_dupShape _ hl
        · exact ih (combineLevel env (padLevel (x :: xs)))
            (combineLevel_not_duplicate env _) lvl hh

/-- Claim C3 (amended): in every tree returned by the Merkle tree builder, a
node flagged `isDuplicate` only ever appears as the final padding node of a
level, and it copies both the hash and the title of the node it duplicates —
so a duplicate node carries the duplicated leaf's title (possibly non-empty)
rather than no title. -/
theorem buildMerkleTree_duplicate_copies_sibling (env : JsEnv) (leaves : List MLeaf)
    (t : MerkleTreeData) (h : buildMerkleTree env leaves = some t) :
    ∀ lvl ∈ t.levels, dupShape lvl := by
  unfold buildMerkleTree at h
  split_ifs at h with hemp
  simp only [Option.some_inj] at h
  subst h
  apply buildLevelsFuel_dupShape
  intro n hn
  rcases List.mem_map.mp hn with ⟨leaf, _, hleaf⟩
  rw [← hleaf]

/-- Witness for the amended C3 at a concrete three-leaf tree. -/
theorem buildMerkleTree_duplicate_copies_sibling_witness :
    buildMerkleTree envC [⟨"aa", "t1"⟩, ⟨"bb", "t2"⟩, ⟨"cc", "t3"⟩]
      = some ⟨[[⟨"aa", some "t1", false⟩, ⟨"bb", some "t2", false⟩, ⟨"cc", some "t3", false⟩,
                ⟨"cc", some "t3", true⟩],
               [⟨"aabb", none, false⟩, ⟨"cccc", none, false⟩],
               [⟨"aabbcccc", none, false⟩]], "aabbcccc"⟩ ∧
    ∀ lvl ∈ [[(⟨"aa", some "t1", false⟩ : MNode), ⟨"bb", some "t2", false⟩,
              ⟨"cc", some "t3", false⟩, ⟨"cc", some "t3", true⟩],
             [⟨"aabb", none, false⟩, ⟨"cccc", none, false⟩],
             [⟨"aabbcccc", none, false⟩]], dupShape lvl :=
  ⟨by decide,
   by
    have h := buildMerkleTree_duplicate_copies_sibling envC
      [⟨"aa", "t1"⟩, ⟨"bb", "t2"⟩, ⟨"cc", "t3"⟩]
      ⟨[[⟨"aa", some "t1", false⟩, ⟨"bb", some "t2", false⟩, ⟨"cc", some "t3", false⟩,
         ⟨"cc", some "t3", true⟩],
        [⟨"aabb", none, false⟩, ⟨"cccc", none, false⟩],
        [⟨"aabbcccc", none, false⟩]], "aabbcccc"⟩ (by decide)
    simpa using h⟩

theorem sortHashes_three (r1 r2 r3 : RowHashes)
    (h12 : strLe r1.canonicalHash r2.canonicalHash = true)
    (h23 : strLe r2.canonicalHash r3.canonicalHash = true) :
    sortHashes [r1, r2, r3] = [r1, r2, r3] := by
  have hr12 : rowLe r1 r2 := h12
  have hr23 : rowLe r2 r3 := h23
  unfold sortHashes
  simp [List.insertionSort, List.orderedInsert, hr12, hr23]

/-- Claim C6: for three leaves whose sort hashes are strictly increasing, the
built tree has leaf level `[h1, h2, h3, dup h3]`, a middle level of exactly
the two double-SHA-256 combinations over the raw decoded bytes of the hex
hashes, and a root combining those two the same way. -/
theorem buildMerkleTree_three_leaves (env : JsEnv) (r1 r2 r3 : RowHashes)
    (h12 : strLt r1.canonicalHash r2.canonicalHash)
    (h23 : strLt r2.canonicalHash r3.canonicalHash) :
    buildMerkleTree env (leavesOfHashes [r1, r2, r3]) = some
      ⟨[[⟨r1.merkleHash, some r1.title, false⟩, ⟨r2.merkleHash, some r2.title, false⟩,
         ⟨r3.merkleHash, some r3.title, false⟩, ⟨r3.merkleHash, some r3.title, true⟩],
        [⟨bytesToHex (env.sha256Bytes (env.sha256Bytes
            (hexToBytes r1.merkleHash ++ hexToBytes r2.merkleHash))), none, false⟩,
         ⟨bytesToHex (env.sha256Bytes (env.sha256Bytes
            (hexToBytes r3.merkleHash ++ hexToBytes r3.merkleHash))), none, false⟩],
        [⟨doubleSha256Hex env (doubleSha256Hex env r1.merkleHash r2.merkleHash)
            (doubleSha256Hex env r3.merkleHash r3.merkleHash), none, false⟩]],
       doubleSha256Hex env (doubleSha256Hex env r1.merkleHash r2.merkleHash)
         (doubleSha256Hex env r3.merkleHash r3.merkleHash)⟩ := by
  unfold leavesOfHashes
  rw [sortHashes_three r1 r2 r3 h12.1 h23.1]
  simp [buildMerkleTree, buildLevelsFuel, padLevel, combineLevel, rootOfLevels, doubleSha256Hex]

/-- Witness for C6 at three concrete leaves with strictly increasing sort
hashes. -/
theorem buildMerkleTree_three_leaves_witness :
    strLt "a" "b" ∧ strLt "b" "c" ∧
    buildMerkleTree envC (leavesOfHashes [⟨"11", "a", "t1"⟩, ⟨"22", "b", "t2"⟩, ⟨"33", "c", "t3"⟩])
      = some ⟨[[⟨"11", some "t1", false⟩, ⟨"22", some "t2", false⟩, ⟨"33", some "t3", false⟩,
                ⟨"33", some "t3", true⟩],
               [⟨"1122", none, false⟩, ⟨"3333", none, false⟩],
               [⟨"11223333", none, false⟩]], "11223333"⟩ :=
  ⟨⟨by decide, by decide⟩, ⟨by decide, by decide⟩, by
    have h := buildMerkleTree_three_leaves envC ⟨"11", "a", "t1"⟩ ⟨"22", "b", "t2"⟩
      ⟨"33", "c", "t3"⟩ ⟨by decide, by decide⟩ ⟨by decide, by decide⟩
    simpa using h⟩

theorem sysStep_version_mono {s s' : PanelSys} {l : SysLabel} (h : SysStep s l s') :
    s.version ≤ s'.version := by
  cases h <;> simp

theorem sysReaches_version_mono {s s' : PanelSys} {tr : List SysLabel}
    (h : SysReaches s tr s') : s.version ≤ s'.version := by
  induction h with
  | refl => exact le_refl _
  | step hstep _ ih => exact le_trans (sysStep_version_mono hstep) ih

theorem sysStep_runs_le {s s' : PanelSys} {l : SysLabel} (h : SysStep s l s')
    (hinv : ∀ r ∈ s.runs, r.runId ≤ s.version) : ∀ r ∈ s'.runs, r.runId ≤ s'.version := by
  cases h with
  | start n leaves tree =>
    intro r hr
    simp only [List.mem_append, List.mem_singleton] at hr
    rcases hr with hr | hr
    · exact le_trans (hinv r hr) (Nat.le_succ _)
    · subst hr; exact le_refl _
  | clearBump =>
    intro r hr
    exact le_trans (hinv r hr) (Nat.le_succ _)
  | clearKeep =>
    exact hinv
  | checkPass pre post r0 k hruns hk hid =>
    intro r hr
    simp only [List.mem_append, List.mem_cons] at hr
    rcases hr with hr | hr | hr
    · exact hinv r (by simp [hruns, hr])
    · subst hr; simpa using hid.le
    · exact hinv r (by simp [hruns, hr])
  | checkFail pre post r0 k hruns hk hid =>
    intro r hr
    simp only [List.mem_append] at hr
    rcases hr with hr | hr
    · exact hinv r (by simp [hruns, hr])
    · exact hinv r (by simp [hruns, hr])
  | publishOk pre post r0 hruns hk hid =>
    intro r hr
    simp only [List.mem_append] at hr
    rcases hr with hr | hr
    · exact hinv r (by simp [hruns, hr])
    · exact hinv r (by simp [hruns, hr])
  | publishStale pre post r0 hruns hk hid =>
    intro r hr
    simp only [List.mem_append] at hr
    rcases hr with hr | hr
    · exact hinv r (by simp [hruns, hr])
    · exact hinv r (by simp [hruns, hr])

theorem sysReaches_runs_le {s s' : PanelSys} {tr : List SysLabel} (h : SysReaches s tr s')
    (hinv : ∀ r ∈ s.runs, r.runId ≤ s.version) : ∀ r ∈ s'.runs, r.runId ≤ s'.version := by
  induction h with
  | refl => exact hinv
  | step hstep _ ih => exact ih (sysStep_runs_le hstep hinv)

/-- Claim C9: a staleness check that finds a different generation abandons the
run with no mutation of the published state; a publication only ever happens
by the run whose captured generation equals the current counter, and it
publishes that run's leaves and tree; every run's captured generation is
bounded by the counter; and once a run is stale (its generation differs from
the counter) no later publication can be its own — only the run current at
completion ever publishes. -/
theorem updateResults_generation_discipline :
    (∀ (s s' : PanelSys) (i : Nat), SysStep s (SysLabel.abandoned i) s' →
      s'.version = s.version ∧ s'.latestHashes = s.latestHashes ∧
      s'.lastMerkleData = s.lastMerkleData) ∧
    (∀ (s s' : PanelSys) (i : Nat), SysStep s (SysLabel.published i) s' →
      i = s.version ∧ ∃ pre post r, s.runs = pre ++ r :: post ∧ r.runId = i ∧
        s'.latestHashes = r.leaves ∧ s'.lastMerkleData = r.tree) ∧
    (∀ (tr : List SysLabel) (s : PanelSys), SysReaches initPanel tr s →
      ∀ r ∈ s.runs, r.runId ≤ s.version) ∧
    (∀ (tr : List SysLabel) (s : PanelSys), SysReaches initPanel tr s →
      ∀ r ∈ s.runs, r.runId ≠ s.version →
      ∀ (tr' : List SysLabel) (s' : PanelSys), SysReaches s tr' s' →
      ∀ (j : Nat) (s'' : PanelSys), SysStep s' (SysLabel.published j) s'' → j ≠ r.runId) := by
  have hpub : ∀ (s s' : PanelSys) (i : Nat), SysStep s (SysLabel.published i) s' →
      i = s.version ∧ ∃ pre post r, s.runs = pre ++ r :: post ∧ r.runId = i ∧
        s'.latestHashes = r.leaves ∧ s'.lastMerkleData = r.tree := by
    intro s s' i h
    cases h with
    | publishOk pre post r hruns hk hid =>
      exact ⟨hid, pre, post, r, hruns, rfl, rfl, rfl⟩
  have hinv : ∀ (tr : List SysLabel) (s : PanelSys), SysReaches initPanel tr s →
      ∀ r ∈ s.runs, r.runId ≤ s.version := by
    intro tr s h
    exact sysReaches_runs_le h (by intro r hr; simp [initPanel] at hr)
  refine ⟨?_, hpub, hinv, ?_⟩
  · intro s s' i h
    cases h with
    | checkFail pre post r k hruns hk hid => exact ⟨rfl, rfl, rfl⟩
    | publishStale pre post r hruns hk hid => exact ⟨rfl, rfl, rfl⟩
  · intro tr s hR r hr hstale tr' s' hR' j s'' hstep
    have hle : r.runId ≤ s.version := hinv tr s hR r hr
    have hlt : r.runId < s.version := Nat.lt_of_le_of_ne hle hstale
    have hmono : s.version ≤ s'.version := sysReaches_version_mono hR'
    have hj : j = s'.version := (hpub s' s'' j hstep).1
    omega

/-- Witness for C9: two runs are started back to back; the first is then
stale, and the publication that happens is the second run's, whose captured
generation equals the counter. -/
theorem updateResults_generation_discipline_witness :
    (2 : Nat) ≠ 1 ∧
    SysReaches initPanel [SysLabel.started 1, SysLabel.started 2]
      ⟨2, [], none, [⟨1, 0, [⟨"aa", ""⟩], none⟩, ⟨2, 0, [⟨"bb", ""⟩], none⟩]⟩ ∧
    SysStep ⟨2, [], none, [⟨1, 0, [⟨"aa", ""⟩], none⟩, ⟨2, 0, [⟨"bb", ""⟩], none⟩]⟩
      (SysLabel.published 2) ⟨2, [⟨"bb", ""⟩], none, [⟨1, 0, [⟨"aa", ""⟩], none⟩]⟩ := by
  have hreach : SysReaches initPanel [SysLabel.started 1, SysLabel.started 2]
      ⟨2, [], none, [⟨1, 0, [⟨"aa", ""⟩], none⟩, ⟨2, 0, [⟨"bb", ""⟩], none⟩]⟩ :=
    SysReaches.step (SysStep.start initPanel 0 [⟨"aa", ""⟩] none)
      (SysReaches.step (SysStep.start ⟨1, [], none, [⟨1, 0, [⟨"aa", ""⟩], none⟩]⟩ 0
        [⟨"bb", ""⟩] none) (SysReaches.refl _))
  have hstep : SysStep ⟨2, [], none, [⟨1, 0, [⟨"aa", ""⟩], none⟩, ⟨2, 0, [⟨"bb", ""⟩], none⟩]⟩
      (SysLabel.published 2) ⟨2, [⟨"bb", ""⟩], none, [⟨1, 0, [⟨"aa", ""⟩], none⟩]⟩ :=
    SysStep.publishOk _ [⟨1, 0, [⟨"aa", ""⟩], none⟩] [] ⟨2, 0, [⟨"bb", ""⟩], none⟩ rfl rfl rfl
  refine ⟨?_, hreach, hstep⟩
  exact updateResults_generation_discipline.2.2.2
    [SysLabel.started 1, SysLabel.started 2] _ hreach ⟨1, 0, [⟨"aa", ""⟩], none⟩
    (by simp) (by decide) [] _ (SysReaches.refl _) 2 _ hstep

theorem hexCharVal_hexDigitChar (k : Nat) (h : k < 16) : hexCharVal (hexDigitChar k) = some k := by
  interval_cases k <;> decide

theorem unescChars_close (rest : List Char) : unescChars (dq :: rest) = some ([], rest) := by
  rw [unescChars.eq_def]
  simp

theorem unescChars_esc_quote (rest : List Char) :
    unescChars ('\\' :: dq :: rest) = (unescChars rest).map (fun p => (dq :: p.1, p.2)) := by
  rw [unescChars.eq_def]
  simp [show ¬(('\\' : Char) = dq) from by decide]

theorem unescChars_esc_backslash (rest : List Char) :
    unescChars ('\\' :: '\\' :: rest) = (unescChars rest).map (fun p => ('\\' :: p.1, p.2)) := by
  rw [unescChars.eq_def]
  simp [show ¬(('\\' : Char) = dq) from by decide]

theorem unescChars_esc_b (rest : List Char) :
    unescChars ('\\' :: 'b' :: rest) = (unescChars rest).map (fun p => (Char.ofNat 8 :: p.1, p.2)) := by
  rw [unescChars.eq_def]
  simp [show ¬(('\\' : Char) = dq) from by decide, show ¬(('b' : Char) = dq) from by decide,
    show ¬(('b' : Char) = '\\') from by decide]

theorem unescChars_esc_f (rest : List Char) :
    unescChars ('\\' :: 'f' :: rest) = (unescChars rest).map (fun p => (Char.ofNat 12 :: p.1, p.2)) := by
  rw [unescChars.eq_def]
  simp [show ¬(('\\' : Char) = dq) from by decide, show ¬(('f' : Char) = dq) from by decide,
    show ¬(('f' : Char) = '\\') from by decide, show ¬(('f' : Char) = 'b') from by decide]

theorem unescChars_esc_n (rest : List Char) :
    unescChars ('\\' :: 'n' :: rest) = (unescChars rest).map (fun p => ('\n' :: p.1, p.2)) := by
  rw [unescChars.eq_def]
  simp [show ¬(('\\' : Char) = dq) from by decide, show ¬(('n' : Char) = dq) from by decide,
    show ¬(('n' : Char) = '\\') from by decide, show ¬(('n' : Char) = 'b') from by decide,
    show ¬(('n' : Char) = 'f') from by decide]

theorem unescChars_esc_r (rest : List Char) :
    unescChars ('\\' :: 'r' :: rest) = (unescChars rest).map (fun p => ('\r' :: p.1, p.2)) := by
  rw [unescChars.eq_def]
  simp [show ¬(('\\' : Char) = dq) from by decide, show ¬(('r' : Char) = dq) from by decide,
    show ¬(('r' : Char) = '\\') from by decide, show ¬(('r' : Char) = 'b') from by decide,
    show ¬(('r' : Char) = 'f') from by decide, show ¬(('r' : Char) = 'n') from by decide]

theorem unescChars_esc_t (rest : List Char) :
    unescChars ('\\' :: 't' :: rest) = (unescChars rest).map (fun p => ('\t' :: p.1, p.2)) := by
  rw [unescChars.eq_def]
  simp [show ¬(('\\' : Char) = dq) from by decide, show ¬(('t' : Char) = dq) from by decide,
    show ¬(('t' : Char) = '\\') from by decide, show ¬(('t' : Char) = 'b') from by decide,
    show ¬(('t' : Char) = 'f') from by decide, show ¬(('t' : Char) = 'n') from by decide,
    show ¬(('t' : Char) = 'r') from by decide]

theorem unescChars_esc_u (x y h1 h2 : Char) (rest : List Char) (a b : Nat)
    (ha : hexCharVal h1 = some a) (hb : hexCharVal h2 = some b) :
    unescChars ('\\' :: 'u' :: x :: y :: h1 :: h2 :: rest)
      = (unescChars rest).map (fun p => (Char.ofNat (16 * a + b) :: p.1, p.2)) := by
  rw [unescChars.eq_def]
  simp [show ¬(('\\' : Char) = dq) from by decide, show ¬(('u' : Char) = dq) from by decide,
    show ¬(('u' : Char) = '\\') from by decide, show ¬(('u' : Char) = 'b') from by decide,
    show ¬(('u' : Char) = 'f') from by decide, show ¬(('u' : Char) = 'n') from by decide,
    show ¬(('u' : Char) = 'r') from by decide, show ¬(('u' : Char) = 't') from by decide,
    ha, hb]

theorem unescChars_other (c : Char) (rest : List Char) (h1 : ¬(c = dq)) (h2 : ¬(c = '\\')) :
    unescChars (c :: rest) = (unescChars rest).map (fun p => (c :: p.1, p.2)) := by
  rw [unescChars.eq_def]
  simp [h1, h2]

set_option maxHeartbeats 2000000 in
theorem unesc_escape (v r : List Char) :
    unescChars (v.flatMap jsonEscapeChar ++ dq :: r) = some (v, r) := by
  induction v with
  | nil => simpa using unescChars_close r
  | cons c cs ih =>
    rw [List.flatMap_cons, List.append_assoc]
    unfold jsonEscapeChar
    split_ifs with h1 h2 h3 h4 h5 h6 h7 h8
    · subst h1
      show unescChars ('\\' :: dq :: (cs.flatMap jsonEscapeChar ++ dq :: r)) = _
      rw [unescChars_esc_quote, ih]
      rfl
    · subst h2
      show unescChars ('\\' :: '\\' :: (cs.flatMap jsonEscapeChar ++ dq :: r)) = _
      rw [unescChars_esc_backslash, ih]
      rfl
    · have hc : Char.ofNat 8 = c := by rw [← h3, Char.ofNat_toNat]
      show unescChars ('\\' :: 'b' :: (cs.flatMap jsonEscapeChar ++ dq :: r)) = _
      rw [unescChars_esc_b, ih, hc]
      rfl
    · have hc : Char.ofNat 12 = c := by rw [← h4, Char.ofNat_toNat]
      show unescChars ('\\' :: 'f' :: (cs.flatMap jsonEscapeChar ++ dq :: r)) = _
      rw [unescChars_esc_f, ih, hc]
      rfl
    · subst h5
      show unescChars ('\\' :: 'n' :: (cs.flatMap jsonEscapeChar ++ dq :: r)) = _
      rw [unescChars_esc_n, ih]
      rfl
    · subst h6
      show unescChars ('\\' :: 'r' :: (cs.flatMap jsonEscapeChar ++ dq :: r)) = _
      rw [unescChars_esc_r, ih]
      rfl
    · subst h7
      show unescChars ('\\' :: 't' :: (cs.flatMap jsonEscapeChar ++ dq :: r)) = _
      rw [unescChars_esc_t, ih]
      rfl
    · show unescChars ('\\' :: 'u' :: '0' :: '0' :: hexDigitChar (c.toNat / 16) ::
          hexDigitChar (c.toNat % 16) :: (cs.flatMap jsonEscapeChar ++ dq :: r)) = _
      rw [unescChars_esc_u _ _ _ _ _ _ _
        (hexCharVal_hexDigitChar (c.toNat / 16) (by omega))
        (hexCharVal_hexDigitChar (c.toNat % 16) (by omega)), ih]
      have hc : Char.ofNat (16 * (c.toNat / 16) + c.toNat % 16) = c := by
        rw [show 16 * (c.toNat / 16) + c.toNat % 16 = c.toNat from by omega, Char.ofNat_toNat]
      rw [hc]
      rfl
    · show unescChars (c :: (cs.flatMap jsonEscapeChar ++ dq :: r)) = _
      rw [unescChars_other c _ h1 h2, ih]
      rfl

theorem stringData_inj {a b : String} (h : a.data = b.data) : a = b := by
  cases a; cases b
  exact congrArg String.mk h

theorem esc_append_cancel {v v' r r' : List Char}
    (h : v.flatMap jsonEscapeChar ++ dq :: r = v'.flatMap jsonEscapeChar ++ dq :: r') :
    v = v' ∧ r = r' := by
  have h1 := congrArg unescChars h
  rw [unesc_escape, unesc_escape] at h1
  have h2 := Option.some.inj h1
  exact ⟨congrArg Prod.fst h2, congrArg Prod.snd h2⟩

theorem jsonMember_flatten (p : String × String) (tail : List Char) :
    jsonMember p ++ tail
      = dq :: (p.1.data.flatMap jsonEscapeChar ++ dq :: ':' :: dq ::
          (p.2.data.flatMap jsonEscapeChar ++ dq :: tail)) := by
  simp [jsonMember, jsonQuoteChars]

theorem jsonMember_append_cancel {p q : String × String} {t t' : List Char}
    (h : jsonMember p ++ t = jsonMember q ++ t') : p.2 = q.2 ∧ t = t' := by
  rw [jsonMember_flatten, jsonMember_flatten] at h
  have h1 := (List.cons.injEq _ _ _ _).mp h
  obtain ⟨hk, hrest⟩ := esc_append_cancel h1.2
  have h2 := (List.cons.injEq _ _ _ _).mp hrest
  have h3 := (List.cons.injEq _ _ _ _).mp h2.2
  obtain ⟨hv, ht⟩ := esc_append_cancel h3.2
  exact ⟨stringData_inj hv, ht⟩

theorem jsonMembersRest_values_inj : ∀ (ps qs : List (String × String)),
    ps.map Prod.fst = qs.map Prod.fst → jsonMembersRest ps = jsonMembersRest qs →
    ps.map Prod.snd = qs.map Prod.snd := by
  intro ps
  induction ps with
  | nil =>
    intro qs hk _
    cases qs with
    | nil => rfl
    | cons q qs' => simp at hk
  | cons p ps' ih =>
    intro qs hk hs
    cases qs with
    | nil => simp at hk
    | cons q qs' =>
      simp only [List.map_cons, List.cons.injEq] at hk
      obtain ⟨hk1, hk2⟩ := hk
      simp only [jsonMembersRest] at hs
      have hs1 := (List.cons.injEq _ _ _ _).mp hs
      obtain ⟨hv, ht⟩ := jsonMember_append_cancel hs1.2
      simp only [List.map_cons, List.cons.injEq]
      exact ⟨hv, ih qs' hk2 ht⟩

theorem jsonObjChars_values_inj (ps qs : List (String × String))
    (hk : ps.map Prod.fst = qs.map Prod.fst) (h : jsonObjChars ps = jsonObjChars qs) :
    ps.map Prod.snd = qs.map Prod.snd := by
  cases ps with
  | nil =>
    cases qs with
    | nil => rfl
    | cons q qs' => simp at hk
  | cons p ps' =>
    cases qs with
    | nil => simp at hk
    | cons q qs' =>
      simp only [List.map_cons, List.cons.injEq] at hk
      obtain ⟨hk1, hk2⟩ := hk
      simp only [jsonObjChars] at h
      have h1 := (List.cons.injEq _ _ _ _).mp h
      obtain ⟨hv, ht⟩ := jsonMember_append_cancel h1.2
      simp only [List.map_cons, List.cons.injEq]
      exact ⟨hv, jsonMembersRest_values_inj ps' qs' hk2 ht⟩

theorem canonicalVal_no_header (env : JsEnv) (e1 e2 : Entry) (f : FieldBinding)
    (h : f.headerName = none) : canonicalVal env e1 f = canonicalVal env e2 f := by
  simp [canonicalVal, getField, h]

theorem canonicalizeEntry_pointwise (env : JsEnv) (sf : List FieldBinding) (e1 e2 : Entry)
    (h : canonicalizeEntry env e1 sf = canonicalizeEntry env e2 sf) :
    ∀ f ∈ sf, canonicalVal env e1 f = canonicalVal env e2 f := by
  intro f hf
  cases hh : f.headerName with
  | none => exact canonicalVal_no_header env e1 e2 f hh
  | some hn =>
    unfold canonicalizeEntry at h
    have h' := congrArg String.data h
    simp only [] at h'
    have hkeys :
        (((List.insertionSort fieldLe sf).filter (fun f => f.headerName.isSome)).map
            (fun f => (f.canonical, canonicalVal env e1 f))).map Prod.fst
          = (((List.insertionSort fieldLe sf).filter (fun f => f.headerName.isSome)).map
            (fun f => (f.canonical, canonicalVal env e2 f))).map Prod.fst := by
      rw [List.map_map, List.map_map]
      rfl
    have hvals := jsonObjChars_values_inj _ _ hkeys h'
    rw [List.map_map, List.map_map] at hvals
    have hmem : f ∈ (List.insertionSort fieldLe sf).filter (fun f => f.headerName.isSome) := by
      rw [List.mem_filter]
      exact ⟨(List.perm_insertionSort fieldLe sf).mem_iff.mpr hf, by simp [hh]⟩
    exact List.map_inj_left.mp hvals f hmem

theorem getField_normalizeEntry_congr (env : JsEnv) (e1 e2 : Entry) (c : String) :
    ∀ (sf : List FieldBinding), (∀ f ∈ sf, canonicalVal env e1 f = canonicalVal env e2 f) →
    getField (normalizeEntry env e1 sf) (some c) = getField (normalizeEntry env e2 sf) (some c)
  | [], _ => rfl
  | f :: fs, hpt => by
    simp only [normalizeEntry, List.map_cons, getField, List.find?]
    by_cases hc : (f.canonical == c) = true
    · simp [hc, hpt f (by simp)]
    · simp only [hc]
      have ih := getField_normalizeEntry_congr env e1 e2 c fs
        (fun g hg => hpt g (by simp [hg]))
      simpa [normalizeEntry, getField] using ih

theorem canonicalizeEntry_determines_hashInput (env : JsEnv) (sf : List FieldBinding)
    (e1 e2 : Entry) (h : canonicalizeEntry env e1 sf = canonicalizeEntry env e2 sf) :
    buildHashInput (normalizeEntry env e1 sf) (sf.map (fun f => f.canonical))
      = buildHashInput (normalizeEntry env e2 sf) (sf.map (fun f => f.canonical)) := by
  have hpt := canonicalizeEntry_pointwise env sf e1 e2 h
  unfold buildHashInput
  dsimp only
  congr 1
  apply List.map_inj_left.mpr
  intro c _
  rw [getField_normalizeEntry_congr env e1 e2 c sf hpt]

theorem mapMerkle_eq_of_mapCanonical_eq : ∀ (s t : List RowHashes),
    (∀ a ∈ s, ∀ b ∈ t, a.canonicalHash = b.canonicalHash → a.merkleHash = b.merkleHash) →
    s.map RowHashes.canonicalHash = t.map RowHashes.canonicalHash →
    s.map RowHashes.merkleHash = t.map RowHashes.merkleHash := by
  intro s
  induction s with
  | nil =>
    intro t _ hk
    cases t with
    | nil => rfl
    | cons b bs => simp at hk
  | cons a as ih =>
    intro t hdet hk
    cases t with
    | nil => simp at hk
    | cons b bs =>
      simp only [List.map_cons, List.cons.injEq] at hk ⊢
      obtain ⟨hk1, hk2⟩ := hk
      refine ⟨hdet a (by simp) b (by simp) hk1, ?_⟩
      exact ih bs (fun x hx y hy => hdet x (by simp [hx]) y (by simp [hy])) hk2

theorem sortHashes_perm (hs : List RowHashes) : (sortHashes hs).Perm hs :=
  List.perm_insertionSort rowLe hs

theorem sortHashes_key_sorted (hs : List RowHashes) :
    List.Sorted strLeP ((sortHashes hs).map RowHashes.canonicalHash) :=
  List.Pairwise.map RowHashes.canonicalHash (fun _ _ hab => hab)
    (List.sorted_insertionSort rowLe hs)

theorem sortHashes_key_map_eq {h1 h2 : List RowHashes} (hperm : h1.Perm h2) :
    (sortHashes h1).map RowHashes.canonicalHash = (sortHashes h2).map RowHashes.canonicalHash := by
  apply List.eq_of_perm_of_sorted (r := strLeP)
  · exact ((sortHashes_perm h1).trans (hperm.trans (sortHashes_perm h2).symm)).map _
  · exact sortHashes_key_sorted h1
  · exact sortHashes_key_sorted h2

theorem padLevel_hash_congr {a b : List MNode}
    (h : a.map MNode.hash = b.map MNode.hash) :
    (padLevel a).map MNode.hash = (padLevel b).map MNode.hash := by
  have hlen : a.length = b.length := by
    rw [← List.length_map a MNode.hash, ← List.length_map b MNode.hash, h]
  unfold padLevel
  rw [← hlen]
  split_ifs with hcond
  · have hgl : a.getLast?.map MNode.hash = b.getLast?.map MNode.hash := by
      rw [← List.getLast?_map, ← List.getLast?_map, h]
    cases hga : a.getLast? with
    | none =>
      rw [hga] at hgl
      cases hgb : b.getLast? with
      | none => exact h
      | some lb => rw [hgb] at hgl; simp at hgl
    | some la =>
      rw [hga] at hgl
      cases hgb : b.getLast? with
      | none => rw [hgb] at hgl; simp at hgl
      | some lb =>
        rw [hgb] at hgl
        simp at hgl
        simp [h, hgl]
  · exact h

theorem combineLevel_hash_congr (env : JsEnv) : ∀ (a b : List MNode),
    a.map MNode.hash = b.map MNode.hash →
    (combineLevel env a).map MNode.hash = (combineLevel env b).map MNode.hash
  | [], b, h => by
    cases b with
    | nil => rfl
    | cons y ys => simp at h
  | [x], b, h => by
    cases b with
    | nil => simp at h
    | cons y ys =>
      cases ys with
      | nil => simp [combineLevel]
      | cons z zs => simp at h
  | x1 :: x2 :: xs, b, h => by
    cases b with
    | nil => simp at h
    | cons y ys =>
      cases ys with
      | nil => simp at h
      | cons z zs =>
        simp only [List.map_cons, List.cons.injEq] at h
        obtain ⟨h1, h2, h3⟩ := h
        simp only [combineLevel, List.map_cons, List.cons.injEq]
        exact ⟨by rw [h1, h2], combineLevel_hash_congr env xs zs h3⟩

theorem buildLevelsFuel_hash_congr (env : JsEnv) : ∀ (fuel : Nat) (a b : List MNode),
    a.map MNode.hash = b.map MNode.hash →
    (buildLevelsFuel env fuel a).map (List.map MNode.hash)
      = (buildLevelsFuel env fuel b).map (List.map MNode.hash) := by
  intro fuel
  induction fuel with
  | zero => intro a b _; cases a <;> cases b <;> rfl
  | succ f ih =>
    intro a b h
    cases a with
    | nil =>
      cases b with
      | nil => rfl
      | cons y ys => simp at h
    | cons x xs =>
      cases b with
      | nil => simp at h
      | cons y ys =>
        simp only [buildLevelsFuel]
        have hpad := padLevel_hash_congr h
        have hplen : (padLevel (x :: xs)).length = (padLevel (y :: ys)).length := by
          rw [← List.length_map _ MNode.hash, ← List.length_map _ MNode.hash, hpad]
        rw [← hplen]
        split_ifs with hone
        · simpa using hpad
        · simp only [List.map_cons, List.cons.injEq]
          exact ⟨hpad, ih _ _ (combineLevel_hash_congr env _ _ hpad)⟩

theorem rootOfLevels_congr {L1 L2 : List (List MNode)}
    (h : L1.map (List.map MNode.hash) = L2.map (List.map MNode.hash)) :
    rootOfLevels L1 = rootOfLevels L2 := by
  unfold rootOfLevels
  have hgl : L1.getLast?.map (List.map MNode.hash) = L2.getLast?.map (List.map MNode.hash) := by
    rw [← List.getLast?_map, ← List.getLast?_map, h]
  cases hg1 : L1.getLast? with
  | none =>
    rw [hg1] at hgl
    cases hg2 : L2.getLast? with
    | none => rfl
    | some l2 => rw [hg2] at hgl; simp at hgl
  | some l1 =>
    rw [hg1] at hgl
    cases hg2 : L2.getLast? with
    | none => rw [hg2] at hgl; simp at hgl
    | some l2 =>
      rw [hg2] at hgl
      simp at hgl
      cases l1 with
      | nil =>
        cases l2 with
        | nil => rfl
        | cons n2 t2 => simp at hgl
      | cons n1 t1 =>
        cases l2 with
        | nil => simp at hgl
        | cons n2 t2 =>
          simp only [List.map_cons, List.cons.injEq] at hgl
          exact hgl.1

theorem buildMerkleTree_root_congr (env : JsEnv) {l1 l2 : List MLeaf}
    (h : l1.map MLeaf.hash = l2.map MLeaf.hash) :
    (buildMerkleTree env l1).map MerkleTreeData.root
      = (buildMerkleTree env l2).map MerkleTreeData.root := by
  cases l1 with
  | nil =>
    cases l2 with
    | nil => rfl
    | cons y ys => simp at h
  | cons x xs =>
    cases l2 with
    | nil => simp at h
    | cons y ys =>
      have hlen : (x :: xs).length = (y :: ys).length := by
        rw [← List.length_map (x :: xs) MLeaf.hash, ← List.length_map (y :: ys) MLeaf.hash, h]
      unfold buildMerkleTree
      rw [if_neg (by simp), if_neg (by simp)]
      dsimp only
      simp only [Option.map_some', Option.some_inj]
      rw [← hlen]
      apply rootOfLevels_congr
      apply buildLevelsFuel_hash_congr
      simpa [List.map_map] using h

/-- Claim C1: for a fixed header binding and non-empty field selection, the
pipeline — normalize each row, compute identity and sort hashes, sort by sort
hash, build the Merkle tree — yields the same root hash on any permutation of
the data rows.  The digest primitive is abstract; the hypothesis that it is
injective plays the role of SHA-256's collision resistance. -/
theorem computeTree_row_order_invariant (env : JsEnv) (sf : List FieldBinding)
    (tf : Option FieldBinding) (entries1 entries2 : List Entry)
    (hinj : Function.Injective env.sha256Hex)
    (hperm : entries1.Perm entries2) (hsel : sf ≠ []) :
    (computeTree env sf tf entries1).map MerkleTreeData.root
      = (computeTree env sf tf entries2).map MerkleTreeData.root := by
  unfold computeTree
  split_ifs with hemp
  · rfl
  · apply buildMerkleTree_root_congr
    unfold leavesOfHashes
    rw [List.map_map, List.map_map]
    show (sortHashes (computeRowHashes env sf tf entries1)).map RowHashes.merkleHash
      = (sortHashes (computeRowHashes env sf tf entries2)).map RowHashes.merkleHash
    apply mapMerkle_eq_of_mapCanonical_eq
    · intro a ha b hb hch
      have ha' : a ∈ computeRowHashes env sf tf entries1 :=
        (sortHashes_perm _).mem_iff.mp ha
      have hb' : b ∈ computeRowHashes env sf tf entries2 :=
        (sortHashes_perm _).mem_iff.mp hb
      obtain ⟨e1, -, he1⟩ := List.mem_map.mp ha'
      obtain ⟨e2, -, he2⟩ := List.mem_map.mp hb'
      subst he1
      subst he2
      have hcanon : canonicalizeEntry env e1 sf = canonicalizeEntry env e2 sf := hinj hch
      exact congrArg env.sha256Hex
        (canonicalizeEntry_determines_hashInput env sf e1 e2 hcanon)
    · exact sortHashes_key_map_eq (hperm.map _)

/-- Witness for C1: two concrete one-column rows in both orders. -/
theorem computeTree_row_order_invariant_witness :
    Function.Injective envC.sha256Hex ∧
    ([[("Title", "x")], [("Title", "y")]] : List Entry).Perm [[("Title", "y")], [("Title", "x")]] ∧
    (computeTree envC [⟨"Title", "title", some "Title"⟩] none
        [[("Title", "x")], [("Title", "y")]]).map MerkleTreeData.root
      = (computeTree envC [⟨"Title", "title", some "Title"⟩] none
        [[("Title", "y")], [("Title", "x")]]).map MerkleTreeData.root :=
  ⟨fun _ _ hab => hab, List.Perm.swap _ _ _,
   computeTree_row_order_invariant envC [⟨"Title", "title", some "Title"⟩] none _ _
     (fun _ _ hab => hab) (List.Perm.swap _ _ _) (by decide)⟩
